import Mathlib

/-!
Verification development for the IlmThread thread pool
(src/OpenEXR/IlmThread/IlmThreadPool.cpp).

We give a shallow embedding of the pool code: the data of
TaskGroup::Data and ThreadPool::Data becomes Lean structures, the pure
state transformations (setNumThreads, the TaskGroup counter updates, the
zero-thread addTask path) become Lean functions, and the concurrent
worker loop becomes a small-step transition system whose transitions
mirror the branches of WorkerThread::run and ThreadPool::addTask.
-/

set_option autoImplicit false

namespace IlmThreadPool

/-! ### TaskGroup::Data (source lines 71-111)

The C++ struct holds a counting semaphore `isEmpty`, initialized to 1,
and an int `numPending`, initialized to 0.  `wait` on the semaphore
decrements its count (blocking while it is 0), `post` increments it.
We model the semaphore count as a `Nat` and `numPending` as an `Int`
(it is a C++ `int`; the claims never approach its overflow range). -/

structure TaskGroupData where
  isEmpty : Nat
  numPending : Int
deriving DecidableEq, Repr

/-- Initial TaskGroup::Data state: `Data() : isEmpty (1), numPending (0)`. -/
def TaskGroupData.init : TaskGroupData :=
  { isEmpty := 1, numPending := 0 }

/-- TaskGroup::Data::addTask, source lines 91-101:
`if (numPending++ == 0) isEmpty.wait ();` — increments the pending count
and, exactly on the 0 to 1 transition, decrements (waits on) the
`isEmpty` semaphore.  The source comments that the surrounding pool
mutex makes the unguarded check safe; under the group invariant the
semaphore count is 1 at that point so the wait does not block, and we
model it as a decrement. -/
def TaskGroupData.addTask (d : TaskGroupData) : TaskGroupData :=
  if d.numPending = 0 then
    { isEmpty := d.isEmpty - 1, numPending := d.numPending + 1 }
  else
    { d with numPending := d.numPending + 1 }

/-- TaskGroup::Data::removeTask, source lines 103-107:
`if (--numPending == 0) isEmpty.post ();` — decrements the pending count
and, exactly on the 1 to 0 transition, posts the `isEmpty` semaphore. -/
def TaskGroupData.removeTask (d : TaskGroupData) : TaskGroupData :=
  if d.numPending - 1 = 0 then
    { isEmpty := d.isEmpty + 1, numPending := d.numPending - 1 }
  else
    { d with numPending := d.numPending - 1 }

/-- The gate of a group is open when a wait on the `isEmpty` semaphore
can proceed without blocking, i.e. its count is nonzero. -/
def TaskGroupData.gateOpen (d : TaskGroupData) : Prop :=
  d.isEmpty ≠ 0

instance (d : TaskGroupData) : Decidable d.gateOpen := by
  unfold TaskGroupData.gateOpen
  infer_instance

/-- The TaskGroup invariant: the pending count is non-negative, the gate
is open exactly when the count is zero, and the binary semaphore count
never exceeds 1. -/
def TaskGroupData.Inv (d : TaskGroupData) : Prop :=
  0 ≤ d.numPending ∧ (d.gateOpen ↔ d.numPending = 0) ∧ d.isEmpty ≤ 1

instance (d : TaskGroupData) : Decidable d.Inv := by
  unfold TaskGroupData.Inv
  infer_instance

/-! ### ThreadPool::Data and setNumThreads (source lines 114-191, 275-327)

ThreadPool::Data owns the FIFO task list with its cached size, the
worker list with its cached size, and the stopping flag.  Tasks are
identified by natural numbers; worker thread objects carry no state
relevant to the claims, so the thread list is a list of units. -/

structure PoolData where
  tasks : List Nat
  numTasks : Nat
  threads : List Unit
  numThreads : Nat
  stopping : Bool
deriving DecidableEq, Repr

/-- Initial ThreadPool::Data state, source lines 116-120:
`numTasks (0), numThreads (0), stopping (false)` with empty lists. -/
def PoolData.init : PoolData :=
  { tasks := [], numTasks := 0, threads := [], numThreads := 0, stopping := false }

/-- State left by ThreadPool::Data::finish (source lines 130-164) after
all workers have drained the queue and been joined: the thread and task
lists are cleared, both cached counts are reset to 0 and the stopping
flag is reset to false. -/
def PoolData.finish (d : PoolData) : PoolData :=
  { tasks := [], numTasks := 0, threads := [], numThreads := 0, stopping := false }

/-- The grow loop of ThreadPool::setNumThreads (source lines 309-313 and
321-325): `while (numThreads < count) { threads.push_back (new
WorkerThread (_data)); numThreads++; }`, written in the closed form that
appends `k` fresh workers. -/
def PoolData.addThreads (d : PoolData) (k : Nat) : PoolData :=
  { d with threads := d.threads ++ List.replicate k (), numThreads := d.numThreads + k }

/-- The message of the Iex::ArgExc thrown by setNumThreads. -/
def argExcMsg : String :=
  "Thread count must be a non-negative value in setGlobalThreadCount ()"

/-- ThreadPool::setNumThreads, source lines 296-327.  A thrown
Iex::ArgExc is modelled as `some argExcMsg` paired with the unmodified
state (the throw happens before any write).  `count > numThreads` grows
the pool; `count < numThreads` calls finish (full stop and restart) and
then grows from zero; equality does nothing. -/
def setNumThreads (d : PoolData) (count : Int) : PoolData × Option String :=
  if count < 0 then
    (d, some argExcMsg)
  else if (d.numThreads : Int) < count then
    (d.addThreads (count.toNat - d.numThreads), none)
  else if count < (d.numThreads : Int) then
    ((d.finish).addThreads count.toNat, none)
  else
    (d, none)

/-- ThreadPool::numThreads, source lines 288-293: returns the cached
worker count. -/
def PoolData.readNumThreads (d : PoolData) : Nat :=
  d.numThreads

/-- Conversion of a C++ `unsigned` argument to the `int` parameter of
setNumThreads: two's complement wraparound at 32 bits. -/
def unsignedToInt (n : Nat) : Int :=
  if n % 2 ^ 32 < 2 ^ 31 then ((n % 2 ^ 32 : Nat) : Int)
  else ((n % 2 ^ 32 : Nat) : Int) - 2 ^ 32

/-- ThreadPool::ThreadPool (unsigned nthreads), source lines 275-279:
fresh ThreadPool::Data, then `setNumThreads (nthreads)` with the
unsigned argument converted to int. -/
def ThreadPool.construct (nthreads : Nat) : PoolData × Option String :=
  setNumThreads PoolData.init (unsignedToInt nthreads)

/-! ### ThreadPool::addTask as a state transformer with an event log
(source lines 330-356)

Tasks are identified by natural numbers.  `addTaskModel` records, in
order, the externally observable actions the C++ function performs:
with zero workers it executes the task inline and deletes it; otherwise
it appends the task to the FIFO, bumps the cached queue size, calls
addTask on the bound group (all under the task mutex) and posts the
task semaphore once. -/

inductive PoolEvent where
  | execInline (t : Nat)
  | delTask (t : Nat)
  | enqueue (t : Nat)
  | groupAdd (t : Nat)
  | groupRemove (t : Nat)
  | semPost
deriving DecidableEq, Repr

structure AddTaskOutcome where
  group : TaskGroupData
  tasks : List Nat
  numTasks : Nat
  events : List PoolEvent
deriving DecidableEq, Repr

/-- ThreadPool::addTask, source lines 330-356, for a single task `t`
bound to the group whose Data is `g`. -/
def addTaskModel (numThreads : Nat) (g : TaskGroupData) (tasks : List Nat)
    (numTasks : Nat) (t : Nat) : AddTaskOutcome :=
  if numThreads = 0 then
    { group := g, tasks := tasks, numTasks := numTasks,
      events := [.execInline t, .delTask t] }
  else
    { group := g.addTask, tasks := tasks ++ [t], numTasks := numTasks + 1,
      events := [.enqueue t, .groupAdd t, .semPost] }

/-- A sequence of ThreadPool::addTask calls, in call order, accumulating
the event log. -/
def addTasksModel (numThreads : Nat) : AddTaskOutcome → List Nat → AddTaskOutcome
  | o, [] => o
  | o, t :: ts =>
      let o1 := addTaskModel numThreads o.group o.tasks o.numTasks t
      addTasksModel numThreads { o1 with events := o.events ++ o1.events } ts

/-! ### TaskGroup bookkeeping traces (for the drain barrier)

A history of the group is a list of addTask and removeTask calls, each
tagged with the task it was performed for.  `gokB a r es` checks, left
to right, that every removeTask in `es` is preceded by strictly more
addTask calls than removeTask calls (each removeTask is matched by a
prior addTask), starting from `a` accumulated adds and `r` accumulated
removes. -/

inductive GEvent where
  | add (t : Nat)
  | remove (t : Nat)
deriving DecidableEq, Repr

def gapply (d : TaskGroupData) : GEvent → TaskGroupData
  | .add _ => d.addTask
  | .remove _ => d.removeTask

/-- The TaskGroup::Data state after a history of bookkeeping calls,
starting from the freshly constructed state. -/
def grun (es : List GEvent) : TaskGroupData :=
  es.foldl gapply TaskGroupData.init

def addedTasks (es : List GEvent) : List Nat :=
  es.filterMap fun e => match e with | .add t => some t | _ => none

def removedTasks (es : List GEvent) : List Nat :=
  es.filterMap fun e => match e with | .remove t => some t | _ => none

def gokB : Nat → Nat → List GEvent → Bool
  | _, _, [] => true
  | a, r, .add _ :: rest => gokB (a + 1) r rest
  | a, r, .remove _ :: rest => decide (r < a) && gokB a (r + 1) rest

/-- The group state determined by `a` addTask calls and `r` removeTask
calls so far (with `r ≤ a`): the semaphore is at 1 exactly when the
counts balance. -/
def mkGroupSt (a r : Nat) : TaskGroupData :=
  { isEmpty := if a = r then 1 else 0, numPending := (a : Int) - (r : Int) }

/-! ### The worker loop as a small-step transition system
(WorkerThread::run, source lines 205-237, with ThreadPool::addTask and
ThreadPool::Data::finish)

Each worker is in one of three phases.  `idle` covers a worker blocked
on the task semaphore or holding the task mutex inspecting the queue;
`executing t` covers the region of WorkerThread::run between popping
task `t` (releasing the task mutex) and finishing the retirement of `t`
(delete plus TaskGroup removeTask); `done` means the worker has taken
the `else if (stopped()) break` branch and left its loop.  -/

inductive WPhase where
  | idle
  | executing (t : Nat)
  | done
deriving DecidableEq, Repr

structure SysState where
  queue : List Nat
  workers : List WPhase
  submitted : List Nat
  finished : List Nat
  stopping : Bool
deriving DecidableEq, Repr

/-- Initial system state of a pool with `n` workers: empty queue,
all workers idle, stopping flag clear. -/
def initSys (n : Nat) : SysState :=
  { queue := [], workers := List.replicate n .idle,
    submitted := [], finished := [], stopping := false }

/-- The tasks currently being executed by some worker. -/
def curOf : List WPhase → List Nat
  | [] => []
  | WPhase.executing t :: ws => t :: curOf ws
  | _ :: ws => curOf ws

def curTasks (s : SysState) : List Nat :=
  curOf s.workers

/-- One interleaved step of the pool.  The transitions mirror the
branches of the source:

* `submit`: ThreadPool::addTask with a nonzero worker count (source
  lines 341-355) appends to the FIFO tail.  It runs under the thread
  mutex, which the shrink and destruction paths hold across
  ThreadPool::Data::finish, so no submission can interleave after the
  stopping flag is set; task pointers are distinct, giving freshness.
* `pop`: the worker branch `if (numTasks > 0)` (lines 219-228) pops the
  FIFO head and starts executing it outside the lock.
* `retire`: the same branch after execute returns (lines 228-231):
  the worker reacquires the lock, deletes the task and calls removeTask
  on its group, becoming idle again.
* `exitW`: the branch `else if (stopped()) break` (lines 233-234):
  a worker leaves its loop only when it holds the lock, sees an empty
  queue and the stopping flag is set.
* `stop`: ThreadPool::Data::stop (lines 172-176) sets the stopping
  flag. -/
inductive SysStep : SysState → SysState → Prop where
  | submit (s : SysState) (t : Nat)
      (hstop : s.stopping = false) (hfresh : t ∉ s.submitted) :
      SysStep s { s with queue := s.queue ++ [t], submitted := s.submitted ++ [t] }
  | pop (s : SysState) (i : Nat) (t : Nat) (rest : List Nat)
      (hw : s.workers.get? i = some .idle) (hq : s.queue = t :: rest) :
      SysStep s { s with queue := rest, workers := s.workers.set i (.executing t) }
  | retire (s : SysState) (i : Nat) (t : Nat)
      (hw : s.workers.get? i = some (.executing t)) :
      SysStep s { s with workers := s.workers.set i .idle,
                         finished := s.finished ++ [t] }
  | exitW (s : SysState) (i : Nat)
      (hw : s.workers.get? i = some .idle) (hq : s.queue = [])
      (hstop : s.stopping = true) :
      SysStep s { s with workers := s.workers.set i .done }
  | stop (s : SysState) :
      SysStep s { s with stopping := true }

/-- States reachable by a pool started with `n` workers. -/
inductive SysReach (n : Nat) : SysState → Prop where
  | init : SysReach n (initSys n)
  | step {s s' : SysState} : SysReach n s → SysStep s s' → SysReach n s'

/-- The inductive system invariant:
1. while the stopping flag is clear no worker has exited;
2. once every worker of a (nonempty) pool has exited, the queue is
   empty;
3. every submitted task is in the queue, being executed, or finished;
4. submitted task identities are distinct;
5. in a single-worker pool, finished tasks, then the task in execution,
   then the queue, read back the submission order exactly. -/
def SysInv (s : SysState) : Prop :=
  (s.stopping = false → ∀ w ∈ s.workers, w ≠ .done) ∧
  (s.workers ≠ [] → (∀ w ∈ s.workers, w = .done) → s.queue = []) ∧
  (∀ t ∈ s.submitted,
    t ∈ s.queue ∨ (∃ w ∈ s.workers, w = .executing t) ∨ t ∈ s.finished) ∧
  s.submitted.Nodup ∧
  (s.workers.length = 1 → s.finished ++ curTasks s ++ s.queue = s.submitted)

/-! ### Lock discipline along the paths that reach execute
(source lines 205-237 and 330-356)

Each path that the pool code takes around a call to Task::execute is
written out as the literal sequence of lock operations and actions the
source performs, and `heldAtExecutes` replays a path, collecting the
multiset of locks held at each execute call. -/

inductive LockName where
  | taskMutex
  | threadMutex
  | stopMutex
deriving DecidableEq, Repr

inductive PathStep where
  | acquire (l : LockName)
  | release (l : LockName)
  | popFront
  | executeTask
  | deleteTask
  | groupRemoveCall
  | enqueueTask
  | groupAddCall
  | postTaskSem
deriving DecidableEq, Repr

/-- The task-popping iteration of WorkerThread::run, source lines
214-235: `Lock taskLock (taskMutex)`; pop the FIFO head;
`taskLock.release (); task->execute (); taskLock.acquire ()`; delete the
task and call removeTask; the lock is released when the block ends. -/
def workerIterPath : List PathStep :=
  [.acquire .taskMutex, .popFront, .release .taskMutex, .executeTask,
   .acquire .taskMutex, .deleteTask, .groupRemoveCall, .release .taskMutex]

/-- The zero-worker branch of ThreadPool::addTask, source lines 334-340:
`Lock lock (threadMutex)` spans the whole function, and inside it the
task is executed and deleted. -/
def addTaskZeroPath : List PathStep :=
  [.acquire .threadMutex, .executeTask, .deleteTask, .release .threadMutex]

/-- The enqueue branch of ThreadPool::addTask, source lines 341-355:
under the thread mutex, an inner `Lock taskLock (taskMutex)` guards the
FIFO append, the queue-size bump and the group addTask call; the
semaphore post happens after the inner lock is gone but still under the
thread mutex. -/
def addTaskEnqueuePath : List PathStep :=
  [.acquire .threadMutex, .acquire .taskMutex, .enqueueTask, .groupAddCall,
   .release .taskMutex, .postTaskSem, .release .threadMutex]

/-- Replays a path from the set `held` of locks already held, returning
the list of lock sets held at each executeTask action, in order. -/
def heldAtExecutes : List LockName → List PathStep → List (List LockName)
  | _, [] => []
  | held, .acquire l :: rest => heldAtExecutes (held ++ [l]) rest
  | held, .release l :: rest => heldAtExecutes (held.erase l) rest
  | held, .executeTask :: rest => held :: heldAtExecutes held rest
  | held, _ :: rest => heldAtExecutes held rest

/-! ## Helper lemmas -/

lemma setNumThreads_neg {d : PoolData} {c : Int} (h : c < 0) :
    setNumThreads d c = (d, some argExcMsg) := by
  unfold setNumThreads
  rw [if_pos h]

lemma setNumThreads_count {d : PoolData} {c : Int} (h : 0 ≤ c) :
    ((setNumThreads d c).1.numThreads : Int) = c ∧ (setNumThreads d c).2 = none := by
  unfold setNumThreads
  rw [if_neg (by omega)]
  by_cases h1 : (d.numThreads : Int) < c
  · rw [if_pos h1]
    exact ⟨by simp only [PoolData.addThreads]; omega, rfl⟩
  · rw [if_neg h1]
    by_cases h2 : c < (d.numThreads : Int)
    · rw [if_pos h2]
      exact ⟨by simp only [PoolData.addThreads, PoolData.finish]; omega, rfl⟩
    · rw [if_neg h2]
      exact ⟨by show ((d.numThreads : Nat) : Int) = c; omega, rfl⟩

lemma setNumThreads_shrink {d : PoolData} {c : Int} (h : 0 ≤ c)
    (h2 : c < (d.numThreads : Int)) :
    (setNumThreads d c).1 =
      { tasks := [], numTasks := 0, threads := List.replicate c.toNat (),
        numThreads := c.toNat, stopping := false } := by
  unfold setNumThreads
  rw [if_neg (by omega), if_neg (by omega), if_pos h2]
  simp [PoolData.finish, PoolData.addThreads]

/-! ## Claim theorems -/

/-- C2: for every negative count, ThreadPool::setNumThreads fails with
the invalid-argument condition (the Iex::ArgExc) and performs no state
mutation: the pool state — worker list, cached thread count, task
queue, cached task count and stopping flag — is returned unchanged. -/
theorem setNumThreads_negative_rejected (d : PoolData) (c : Int) (h : c < 0) :
    setNumThreads d c = (d, some argExcMsg) :=
  setNumThreads_neg h

/-- Witness for C2 at the concrete call setNumThreads (-1) on a fresh
pool. -/
theorem setNumThreads_negative_rejected_witness :
    (-1 : Int) < 0 ∧
      setNumThreads PoolData.init (-1) = (PoolData.init, some argExcMsg) :=
  ⟨by decide, setNumThreads_negative_rejected PoolData.init (-1) (by decide)⟩

/-- C3: for every non-negative count, after setNumThreads returns
normally (no error), numThreads reads back exactly that count, whether
the pool grew, stayed, or shrank; shrinking goes through
ThreadPool::Data::finish (full stop and restart) and then spawns the
requested number of fresh workers. -/
theorem setNumThreads_establishes_count (d : PoolData) (c : Int) (h : 0 ≤ c) :
    (((setNumThreads d c).1.readNumThreads : Int) = c ∧
      (setNumThreads d c).2 = none) ∧
    (c < (d.numThreads : Int) →
      (setNumThreads d c).1.threads = List.replicate c.toNat () ∧
      (setNumThreads d c).1.tasks = []) := by
  refine ⟨setNumThreads_count h, fun h2 => ?_⟩
  rw [setNumThreads_shrink h h2]
  exact ⟨rfl, rfl⟩

/-- Witness for C3: shrink a four-worker pool to two and read the count
back. -/
theorem setNumThreads_establishes_count_witness :
    (0 : Int) ≤ 2 ∧
      ((setNumThreads
          { tasks := [], numTasks := 0, threads := List.replicate 4 (),
            numThreads := 4, stopping := false } 2).1.readNumThreads : Int) = 2 :=
  ⟨by decide,
    (setNumThreads_establishes_count
      { tasks := [], numTasks := 0, threads := List.replicate 4 (),
        numThreads := 4, stopping := false } 2 (by decide)).1.1⟩

/-- C9: setNumThreads with the current worker count is a no-op (the
whole state, error-free, is returned untouched); with a larger count
only the worker list and the cached thread count change — the task
queue, the cached task count and the stopping flag are untouched, and
the worker list grows by exactly the difference. -/
theorem setNumThreads_frame_conditions (d : PoolData) (c : Int) :
    (c = (d.numThreads : Int) → setNumThreads d c = (d, none)) ∧
    ((d.numThreads : Int) < c →
      setNumThreads d c =
        (d.addThreads (c.toNat - d.numThreads), none) ∧
      (setNumThreads d c).1.tasks = d.tasks ∧
      (setNumThreads d c).1.numTasks = d.numTasks ∧
      (setNumThreads d c).1.stopping = d.stopping) := by
  constructor
  · intro he
    unfold setNumThreads
    rw [if_neg (by omega), if_neg (by omega), if_neg (by omega)]
  · intro hlt
    have hgrow : setNumThreads d c = (d.addThreads (c.toNat - d.numThreads), none) := by
      unfold setNumThreads
      rw [if_neg (by omega), if_pos hlt]
    refine ⟨hgrow, ?_, ?_, ?_⟩ <;> rw [hgrow] <;> rfl

/-- Witness for C9: a no-op resize at the current count 1, and a grow
from 1 to 3 leaving queue, task count and stopping flag untouched. -/
theorem setNumThreads_frame_conditions_witness :
    setNumThreads
        { tasks := [5], numTasks := 1, threads := [()], numThreads := 1,
          stopping := false } 1 =
      ({ tasks := [5], numTasks := 1, threads := [()], numThreads := 1,
          stopping := false }, none) ∧
    (setNumThreads
        { tasks := [5], numTasks := 1, threads := [()], numThreads := 1,
          stopping := false } 3).1.tasks = [5] :=
  ⟨(setNumThreads_frame_conditions
      { tasks := [5], numTasks := 1, threads := [()], numThreads := 1,
        stopping := false } 1).1 (by decide),
   ((setNumThreads_frame_conditions
      { tasks := [5], numTasks := 1, threads := [()], numThreads := 1,
        stopping := false } 3).2 (by decide)).2.1⟩

/-- C10: the ThreadPool constructor takes an unsigned count and forwards
it to the signed setNumThreads.  For an unsigned value of at least
2 to the 31st (and below 2 to the 32nd) the two's complement conversion
is negative, so construction fails with the invalid-argument condition
and creates no workers; below that bound construction succeeds and
numThreads reads back the requested count. -/
theorem construct_unsigned_wraparound (n : Nat) (hn : n < 2 ^ 32) :
    (2 ^ 31 ≤ n → ThreadPool.construct n = (PoolData.init, some argExcMsg)) ∧
    (n < 2 ^ 31 →
      (ThreadPool.construct n).1.readNumThreads = n ∧
      (ThreadPool.construct n).2 = none) := by
  have hmod : n % 2 ^ 32 = n := Nat.mod_eq_of_lt hn
  constructor
  · intro hhi
    have hneg : unsignedToInt n < 0 := by
      unfold unsignedToInt
      rw [if_neg (by omega)]
      omega
    exact setNumThreads_neg hneg
  · intro hlo
    have hval : unsignedToInt n = (n : Int) := by
      unfold unsignedToInt
      rw [if_pos (by omega)]
      omega
    have h := setNumThreads_count (d := PoolData.init) (c := (n : Int)) (by omega)
    unfold ThreadPool.construct
    rw [hval]
    exact ⟨by have := h.1; unfold PoolData.readNumThreads at *; omega, h.2⟩

/-- Witness for C10 at the boundary value 2 to the 31st (construction
fails, no workers) and at 3 (construction succeeds with three
workers). -/
theorem construct_unsigned_wraparound_witness :
    ThreadPool.construct (2 ^ 31) = (PoolData.init, some argExcMsg) ∧
    (ThreadPool.construct 3).1.readNumThreads = 3 :=
  ⟨(construct_unsigned_wraparound (2 ^ 31) (by norm_num)).1 (by norm_num),
   ((construct_unsigned_wraparound 3 (by norm_num)).2 (by norm_num)).1⟩

lemma addTasksModel_zero (g : TaskGroupData) (q : List Nat) (n : Nat)
    (es : List PoolEvent) (ts : List Nat) :
    addTasksModel 0 { group := g, tasks := q, numTasks := n, events := es } ts =
      { group := g, tasks := q, numTasks := n,
        events := es ++ ts.flatMap fun t => [.execInline t, .delTask t] } := by
  induction ts generalizing es with
  | nil => simp [addTasksModel]
  | cons t ts ih =>
      have hstep :
          addTasksModel 0 { group := g, tasks := q, numTasks := n, events := es }
              (t :: ts) =
            addTasksModel 0
              { group := g, tasks := q, numTasks := n,
                events := es ++ [.execInline t, .delTask t] } ts := rfl
      rw [hstep, ih]
      simp

/-- C4: the TaskGroup invariant (pending count non-negative, gate open
exactly when the count is zero) is preserved by both bookkeeping
operations: addTask increments the count, leaves the gate closed
afterwards and waits on the semaphore only on the 0 to 1 transition;
removeTask — under the matched-call assumption that the count is
positive — decrements the count, opens the gate exactly on the 1 to 0
transition and touches the semaphore only then. -/
theorem taskGroup_gate_invariant (d : TaskGroupData) (h : d.Inv) :
    (d.addTask.Inv ∧ d.addTask.numPending = d.numPending + 1 ∧
      ¬ d.addTask.gateOpen ∧
      (d.numPending ≠ 0 → d.addTask.isEmpty = d.isEmpty)) ∧
    (0 < d.numPending →
      d.removeTask.Inv ∧ d.removeTask.numPending = d.numPending - 1 ∧
      (d.removeTask.gateOpen ↔ d.numPending = 1) ∧
      (d.numPending ≠ 1 → d.removeTask.isEmpty = d.isEmpty)) := by
  obtain ⟨hnn, hgate, hle⟩ := h
  have hopen := hgate.mp
  have hclosed := hgate.mpr
  unfold TaskGroupData.gateOpen at hopen hclosed
  have hcase : (d.numPending = 0 ∧ d.isEmpty = 1) ∨
      (0 < d.numPending ∧ d.isEmpty = 0) := by
    by_cases h0 : d.numPending = 0
    · have := hclosed h0
      exact Or.inl ⟨h0, by omega⟩
    · refine Or.inr ⟨by omega, ?_⟩
      by_contra hne
      have : d.numPending = 0 := hopen (by omega)
      omega
  constructor
  · rcases hcase with ⟨h0, he⟩ | ⟨h0, he⟩
    · have hie : d.addTask.isEmpty = d.isEmpty - 1 := by
        unfold TaskGroupData.addTask
        rw [if_pos h0]
      have hnp : d.addTask.numPending = d.numPending + 1 := by
        unfold TaskGroupData.addTask
        rw [if_pos h0]
      simp only [TaskGroupData.Inv, TaskGroupData.gateOpen, hie, hnp, and_true, true_and, implies_true]
      omega
    · have hie : d.addTask.isEmpty = d.isEmpty := by
        unfold TaskGroupData.addTask
        rw [if_neg (by omega)]
      have hnp : d.addTask.numPending = d.numPending + 1 := by
        unfold TaskGroupData.addTask
        rw [if_neg (by omega)]
      simp only [TaskGroupData.Inv, TaskGroupData.gateOpen, hie, hnp, and_true, true_and, implies_true]
      omega
  · intro hpos
    rcases hcase with ⟨h0, he⟩ | ⟨h0, he⟩
    · omega
    · by_cases h1 : d.numPending = 1
      · have hie : d.removeTask.isEmpty = d.isEmpty + 1 := by
          unfold TaskGroupData.removeTask
          rw [if_pos (by omega)]
        have hnp : d.removeTask.numPending = d.numPending - 1 := by
          unfold TaskGroupData.removeTask
          rw [if_pos (by omega)]
        simp only [TaskGroupData.Inv, TaskGroupData.gateOpen, hie, hnp, and_true, true_and, implies_true]
        omega
      · have hie : d.removeTask.isEmpty = d.isEmpty := by
          unfold TaskGroupData.removeTask
          rw [if_neg (by omega)]
        have hnp : d.removeTask.numPending = d.numPending - 1 := by
          unfold TaskGroupData.removeTask
          rw [if_neg (by omega)]
        simp only [TaskGroupData.Inv, TaskGroupData.gateOpen, hie, hnp, and_true, true_and, implies_true]
        omega

/-- Witness for C4: the invariant-satisfying state with one pending
task, to which both the addTask and the removeTask halves of the
theorem apply. -/
theorem taskGroup_gate_invariant_witness :
    (TaskGroupData.mk 0 1).addTask.Inv ∧ (TaskGroupData.mk 0 1).removeTask.Inv :=
  ⟨(taskGroup_gate_invariant (TaskGroupData.mk 0 1) (by decide)).1.1,
   ((taskGroup_gate_invariant (TaskGroupData.mk 0 1) (by decide)).2 (by decide)).1⟩

/-- C1 counterexample: submitting task 5 to a pool with zero worker
threads produces no group bookkeeping at all — contrary to the claim,
neither the addTask nor the removeTask call on the bound group occurs
in the zero-thread branch of ThreadPool::addTask (source lines
336-340, which only run execute and delete). -/
theorem zeroThread_addTask_counterexample :
    ¬ (PoolEvent.groupAdd 5 ∈ (addTaskModel 0 TaskGroupData.init [] 0 5).events ∧
       PoolEvent.groupRemove 5 ∈ (addTaskModel 0 TaskGroupData.init [] 0 5).events) := by
  decide

/-- C1 amended: with zero worker threads, every submitted task executes
synchronously on the calling thread, in call order, and is destroyed
immediately after executing; the bound group is never touched — its
addTask and removeTask are not invoked — so its pending count is
(trivially) unchanged overall, and the FIFO queue and cached task count
are untouched. -/
theorem zeroThread_addTask_inline (g : TaskGroupData) (q : List Nat) (n : Nat)
    (ts : List Nat) :
    addTasksModel 0 { group := g, tasks := q, numTasks := n, events := [] } ts =
      { group := g, tasks := q, numTasks := n,
        events := ts.flatMap fun t => [PoolEvent.execInline t, PoolEvent.delTask t] } ∧
    (addTasksModel 0 { group := g, tasks := q, numTasks := n, events := [] } ts).group
      = g := by
  rw [addTasksModel_zero]
  exact ⟨by simp, rfl⟩

/-- C8 counterexample: on the zero-thread synchronous path of
ThreadPool::addTask, the pool-owned thread mutex is held across the
call to execute — the lock set at the execute action is not empty. -/
theorem execute_lock_free_counterexample :
    ¬ ∀ held ∈ heldAtExecutes [] addTaskZeroPath, held = ([] : List LockName) := by
  decide

/-- C8 amended: the task-queue lock (the task mutex) is never held
across a call to execute on any path: the worker loop holds no pool
lock at all during execute, and the enqueue path never reaches execute;
but the zero-thread synchronous path of addTask does hold the
pool-owned thread mutex (and only it) across the inline execute. -/
theorem execute_lock_discipline :
    heldAtExecutes [] workerIterPath = [[]] ∧
    heldAtExecutes [] addTaskZeroPath = [[LockName.threadMutex]] ∧
    heldAtExecutes [] addTaskEnqueuePath = [] := by
  decide

lemma mkGroupSt_congr {a r a2 r2 : Nat} (h1 : a = a2) (h2 : r = r2) :
    mkGroupSt a r = mkGroupSt a2 r2 := by
  rw [h1, h2]

lemma addedTasks_cons_add (t : Nat) (es : List GEvent) :
    addedTasks (.add t :: es) = t :: addedTasks es := by
  simp [addedTasks]

lemma addedTasks_cons_remove (t : Nat) (es : List GEvent) :
    addedTasks (.remove t :: es) = addedTasks es := by
  simp [addedTasks]

lemma removedTasks_cons_add (t : Nat) (es : List GEvent) :
    removedTasks (.add t :: es) = removedTasks es := by
  simp [removedTasks]

lemma removedTasks_cons_remove (t : Nat) (es : List GEvent) :
    removedTasks (.remove t :: es) = t :: removedTasks es := by
  simp [removedTasks]

lemma gapply_add (t a r : Nat) (h : r ≤ a) :
    gapply (mkGroupSt a r) (.add t) = mkGroupSt (a + 1) r := by
  simp only [gapply, TaskGroupData.addTask, mkGroupSt]
  split_ifs <;> (simp only [TaskGroupData.mk.injEq, true_and, and_true]; omega)

lemma gapply_remove (t a r : Nat) (h : r < a) :
    gapply (mkGroupSt a r) (.remove t) = mkGroupSt a (r + 1) := by
  simp only [gapply, TaskGroupData.removeTask, mkGroupSt]
  split_ifs <;> (simp only [TaskGroupData.mk.injEq, true_and, and_true]; omega)

lemma foldl_gapply_mk (es : List GEvent) : ∀ a r : Nat, gokB a r es = true → r ≤ a →
    es.foldl gapply (mkGroupSt a r) =
      mkGroupSt (a + (addedTasks es).length) (r + (removedTasks es).length) := by
  induction es with
  | nil =>
      intro a r _ _
      simp [addedTasks, removedTasks]
  | cons e rest ih =>
      intro a r hok hle
      cases e with
      | add t =>
          have hok2 : gokB (a + 1) r rest = true := hok
          rw [List.foldl_cons, gapply_add t a r hle, ih (a + 1) r hok2 (by omega)]
          exact mkGroupSt_congr
            (by rw [addedTasks_cons_add]; simp; omega)
            (by rw [removedTasks_cons_add])
      | remove t =>
          have hok2 : (decide (r < a) && gokB a (r + 1) rest) = true := hok
          rw [Bool.and_eq_true] at hok2
          have hra : r < a := by
            have := hok2.1
            simpa using this
          rw [List.foldl_cons, gapply_remove t a r hra, ih a (r + 1) hok2.2 (by omega)]
          exact mkGroupSt_congr
            (by rw [addedTasks_cons_remove])
            (by rw [removedTasks_cons_remove]; simp; omega)

/-- The TaskGroup state after a well-matched history is determined by
the number of addTask and removeTask calls. -/
lemma grun_eq (es : List GEvent) (hok : gokB 0 0 es = true) :
    grun es = mkGroupSt (addedTasks es).length (removedTasks es).length := by
  have hinit : TaskGroupData.init = mkGroupSt 0 0 := by decide
  unfold grun
  rw [hinit, foldl_gapply_mk es 0 0 hok (by omega)]
  exact mkGroupSt_congr (by omega) (by omega)

lemma all_mem_of_subset_nodup {α : Type} [DecidableEq α] {r a : List α}
    (hsub : r ⊆ a) (hna : a.Nodup) (hnr : r.Nodup) (hlen : a.length ≤ r.length) :
    ∀ t ∈ a, t ∈ r := by
  have h1 : r.toFinset ⊆ a.toFinset := by
    intro x hx
    rw [List.mem_toFinset] at *
    exact hsub hx
  have h2 : a.toFinset.card ≤ r.toFinset.card := by
    rw [List.toFinset_card_of_nodup hna, List.toFinset_card_of_nodup hnr]
    exact hlen
  have h3 : r.toFinset = a.toFinset := Finset.eq_of_subset_of_card_le h1 h2
  intro t ht
  have hm : t ∈ a.toFinset := List.mem_toFinset.mpr ht
  rw [← h3] at hm
  exact List.mem_toFinset.mp hm

/-- C5: a drain of the group — the destructor of TaskGroup::Data or an
explicit wait, both of which wait on the `isEmpty` semaphore — can
complete only in a state whose gate is open.  For any well-matched
bookkeeping history (every removeTask preceded by a matching addTask,
distinct tasks), if the gate is open at the moment the drain returns,
the pending count is zero and every task whose addTask happened in any
earlier portion of the history (in particular, before the wait began)
has had its removeTask — i.e. has completed execution and been retired
— by that moment. -/
theorem taskGroup_drain_all_retired (es : List GEvent)
    (hok : gokB 0 0 es = true)
    (hsub : removedTasks es ⊆ addedTasks es)
    (hna : (addedTasks es).Nodup)
    (hnr : (removedTasks es).Nodup)
    (hd : (grun es).gateOpen) :
    (grun es).numPending = 0 ∧
    ∀ p q : List GEvent, es = p ++ q → ∀ t ∈ addedTasks p, t ∈ removedTasks es := by
  have he := grun_eq es hok
  rw [he] at hd
  simp only [TaskGroupData.gateOpen, mkGroupSt] at hd
  have hlen : (addedTasks es).length = (removedTasks es).length := by
    by_contra hne
    rw [if_neg hne] at hd
    exact hd rfl
  constructor
  · rw [he]
    simp only [mkGroupSt]
    omega
  · intro p q hpq t ht
    have hta : t ∈ addedTasks es := by
      rw [hpq]
      unfold addedTasks
      rw [List.filterMap_append]
      exact List.mem_append_left _ ht
    exact all_mem_of_subset_nodup hsub hna hnr (by omega) t hta

/-- Witness for C5: the history add 0, add 1, remove 0, remove 1 drains
with an open gate, and task 0 — added in the portion of the history
before the drain — is among the retired tasks. -/
theorem taskGroup_drain_all_retired_witness :
    gokB 0 0 [GEvent.add 0, GEvent.add 1, GEvent.remove 0, GEvent.remove 1] = true ∧
    (0 : Nat) ∈
      removedTasks [GEvent.add 0, GEvent.add 1, GEvent.remove 0, GEvent.remove 1] :=
  ⟨by decide,
   (taskGroup_drain_all_retired
      [GEvent.add 0, GEvent.add 1, GEvent.remove 0, GEvent.remove 1]
      (by decide) (by decide) (by decide) (by decide) (by decide)).2
     [GEvent.add 0] [GEvent.add 1, GEvent.remove 0, GEvent.remove 1] rfl 0 (by decide)⟩

lemma lt_of_get? {α : Type} {l : List α} {i : Nat} {x : α}
    (h : l.get? i = some x) : i < l.length :=
  (List.get?_eq_some.mp h).1

lemma mem_set_self {α : Type} (l : List α) (i : Nat) (a : α) (h : i < l.length) :
    a ∈ l.set i a := by
  have h1 : (l.set i a).get? i = some a := by
    rw [List.get?_eq_getElem?]
    simp [List.getElem?_set_self, h]
  exact List.get?_mem h1

lemma mem_set_of_ne {α : Type} {l : List α} {i : Nat} {x w : α} (a : α)
    (hw : w ∈ l) (hx : l.get? i = some x) (hne : w ≠ x) : w ∈ l.set i a := by
  obtain ⟨j, hj⟩ := List.mem_iff_get?.mp hw
  have hji : i ≠ j := by
    intro e
    subst e
    rw [hj] at hx
    exact hne (Option.some.inj hx)
  have h2 : (l.set i a).get? j = some w := by
    rw [List.get?_set_ne a l hji]
    exact hj
  exact List.get?_mem h2

lemma singleton_of_length_one {α : Type} {l : List α} {x : α}
    (h : l.length = 1) (h2 : l.get? 0 = some x) : l = [x] := by
  match l, h with
  | [a], _ => simp_all

lemma mems_before_pivot {α : Type} {p q xs ys : List α} {b : α}
    (h : p ++ q = xs ++ b :: ys) (hb : b ∉ p) : ∀ a ∈ p, a ∈ xs := by
  have htake : p = xs.take p.length ++ (b :: ys).take (p.length - xs.length) := by
    have h1 := congrArg (fun l => List.take p.length l) h
    simpa [List.take_left, List.take_append_eq_append_take] using h1
  by_cases hle : p.length ≤ xs.length
  · have hz : p.length - xs.length = 0 := by omega
    rw [hz] at htake
    simp only [List.take_zero, List.append_nil] at htake
    intro a ha
    rw [htake] at ha
    exact List.take_subset _ _ ha
  · exfalso
    obtain ⟨k, hk⟩ : ∃ k, p.length - xs.length = k + 1 :=
      ⟨p.length - xs.length - 1, by omega⟩
    apply hb
    rw [htake, hk, List.take_succ_cons]
    exact List.mem_append_right _ (by simp)

lemma sysInv_init (n : Nat) : SysInv (initSys n) := by
  refine ⟨?_, ?_, ?_, ?_, ?_⟩
  · intro _ w hw
    have hwi : w = WPhase.idle := List.eq_of_mem_replicate hw
    simp [hwi]
  · intro _ _
    rfl
  · intro t ht
    simp [initSys] at ht
  · simp [initSys]
  · intro h
    have hn : n = 1 := by simpa [initSys] using h
    subst hn
    rfl

lemma sysInv_step {s s' : SysState} (hinv : SysInv s) (hst : SysStep s s') :
    SysInv s' := by
  obtain ⟨hnd, hdq, hcov, hnodup, hord⟩ := hinv
  cases hst with
  | submit t hstop hfresh =>
      refine ⟨?_, ?_, ?_, ?_, ?_⟩
      · intro hstop2 w hw
        exact hnd hstop2 w hw
      · intro hne hall
        obtain ⟨w, hw⟩ := List.exists_mem_of_ne_nil _ hne
        exact absurd (hall w hw) (hnd hstop w hw)
      · intro u hu
        rcases List.mem_append.mp hu with h | h
        · rcases hcov u h with hq | hex | hf
          · exact Or.inl (List.mem_append_left _ hq)
          · exact Or.inr (Or.inl hex)
          · exact Or.inr (Or.inr hf)
        · have hut : u = t := by simpa using h
          subst hut
          exact Or.inl (List.mem_append_right _ (by simp))
      · simp only [List.nodup_append, List.nodup_cons, List.nodup_nil]
        exact ⟨hnodup, by simp, by simpa [List.disjoint_singleton] using hfresh⟩
      · intro hlen
        have h1 := hord hlen
        show s.finished ++ curTasks s ++ (s.queue ++ [t]) = s.submitted ++ [t]
        rw [← h1]
        simp
  | pop i t rest hw hq =>
      have hi : i < s.workers.length := lt_of_get? hw
      refine ⟨?_, ?_, ?_, ?_, ?_⟩
      · intro hstop2 w hw2
        rcases List.mem_or_eq_of_mem_set hw2 with h | h
        · exact hnd hstop2 w h
        · subst h
          simp
      · intro hne hall
        exfalso
        have hmem : WPhase.executing t ∈ s.workers.set i (.executing t) :=
          mem_set_self _ _ _ hi
        have := hall _ hmem
        simp at this
      · intro u hu
        rcases hcov u hu with hqm | ⟨w, hwm, hwe⟩ | hf
        · rw [hq] at hqm
          rcases List.mem_cons.mp hqm with hut | hr
          · subst hut
            exact Or.inr (Or.inl ⟨.executing u, mem_set_self _ _ _ hi, rfl⟩)
          · exact Or.inl hr
        · have hne2 : w ≠ WPhase.idle := by
            subst hwe
            simp
          exact Or.inr (Or.inl ⟨w, mem_set_of_ne _ hwm hw hne2, hwe⟩)
        · exact Or.inr (Or.inr hf)
      · exact hnodup
      · intro hlen
        have hl1 : s.workers.length = 1 := by
          simpa [List.length_set] using hlen
        have hi0 : i = 0 := by omega
        subst hi0
        have hws : s.workers = [WPhase.idle] := singleton_of_length_one hl1 hw
        have h1 := hord hl1
        unfold curTasks at h1
        rw [hws, hq] at h1
        show s.finished ++ curOf (s.workers.set 0 (.executing t)) ++ rest = s.submitted
        rw [hws]
        simpa [curOf, List.set] using h1
  | retire i t hw =>
      have hi : i < s.workers.length := lt_of_get? hw
      refine ⟨?_, ?_, ?_, ?_, ?_⟩
      · intro hstop2 w hw2
        rcases List.mem_or_eq_of_mem_set hw2 with h | h
        · exact hnd hstop2 w h
        · subst h
          simp
      · intro hne hall
        exfalso
        have hmem : WPhase.idle ∈ s.workers.set i .idle := mem_set_self _ _ _ hi
        have := hall _ hmem
        simp at this
      · intro u hu
        rcases hcov u hu with hqm | ⟨w, hwm, hwe⟩ | hf
        · exact Or.inl hqm
        · by_cases hut : u = t
          · subst hut
            exact Or.inr (Or.inr (List.mem_append_right _ (by simp)))
          · have hne2 : w ≠ WPhase.executing t := by
              subst hwe
              simp [hut]
            exact Or.inr (Or.inl ⟨w, mem_set_of_ne _ hwm hw hne2, hwe⟩)
        · exact Or.inr (Or.inr (List.mem_append_left _ hf))
      · exact hnodup
      · intro hlen
        have hl1 : s.workers.length = 1 := by
          simpa [List.length_set] using hlen
        have hi0 : i = 0 := by omega
        subst hi0
        have hws : s.workers = [WPhase.executing t] := singleton_of_length_one hl1 hw
        have h1 := hord hl1
        unfold curTasks at h1
        rw [hws] at h1
        show (s.finished ++ [t]) ++ curOf (s.workers.set 0 .idle) ++ s.queue
          = s.submitted
        rw [hws]
        simp only [curOf, List.set] at h1 ⊢
        simpa using h1
  | exitW i hw hq hstop =>
      have hi : i < s.workers.length := lt_of_get? hw
      refine ⟨?_, ?_, ?_, ?_, ?_⟩
      · intro hstop2
        rw [hstop] at hstop2
        cases hstop2
      · intro _ _
        exact hq
      · intro u hu
        rcases hcov u hu with hqm | ⟨w, hwm, hwe⟩ | hf
        · rw [hq] at hqm
          cases hqm
        · have hne2 : w ≠ WPhase.idle := by
            subst hwe
            simp
          exact Or.inr (Or.inl ⟨w, mem_set_of_ne _ hwm hw hne2, hwe⟩)
        · exact Or.inr (Or.inr hf)
      · exact hnodup
      · intro hlen
        have hl1 : s.workers.length = 1 := by
          simpa [List.length_set] using hlen
        have hi0 : i = 0 := by omega
        subst hi0
        have hws : s.workers = [WPhase.idle] := singleton_of_length_one hl1 hw
        have h1 := hord hl1
        unfold curTasks at h1
        rw [hws] at h1
        show s.finished ++ curOf (s.workers.set 0 .done) ++ s.queue = s.submitted
        rw [hws]
        simp only [curOf, List.set] at h1 ⊢
        exact h1
  | stop =>
      refine ⟨?_, ?_, ?_, ?_, ?_⟩
      · intro hstop2
        cases hstop2
      · intro hne hall
        exact hdq hne hall
      · exact hcov
      · exact hnodup
      · exact hord

lemma sysInv_reach (n : Nat) : ∀ s : SysState, SysReach n s → SysInv s := by
  intro s h
  induction h with
  | init => exact sysInv_init n
  | step _ hst ih => exact sysInv_step ih hst

/-- C7: shutdown and shrink never silently discard enqueued work.  A
worker leaves its loop only through the transition that requires the
stopping flag set and an empty queue (the `else if (stopped()) break`
branch).  Consequently, in every reachable state of a pool with at
least one worker in which every worker has exited — which is exactly
the point at which ThreadPool::Data::finish has joined all workers and
a shrinking setNumThreads call (including setNumThreads(0)) returns —
the queue is empty and every task ever enqueued has been popped,
executed and retired. -/
theorem shutdown_completes_enqueued_work (n : Nat) (s : SysState)
    (hr : SysReach n s) (hne : s.workers ≠ [])
    (hdone : ∀ w ∈ s.workers, w = WPhase.done) :
    s.queue = [] ∧ ∀ t ∈ s.submitted, t ∈ s.finished := by
  obtain ⟨-, hdq, hcov, -, -⟩ := sysInv_reach n s hr
  refine ⟨hdq hne hdone, ?_⟩
  intro t ht
  rcases hcov t ht with hq | ⟨w, hwm, hwe⟩ | hf
  · rw [hdq hne hdone] at hq
    cases hq
  · rw [hdone w hwm] at hwe
    cases hwe
  · exact hf

/-- Witness for C7: a single-worker pool that enqueues task 7, pops,
executes and retires it, is stopped, and whose worker then exits; in
the final all-exited state the queue is empty and task 7 is finished. -/
theorem shutdown_completes_enqueued_work_witness :
    (SysState.mk [] [WPhase.done] [7] [7] true).queue = [] ∧
    ∀ t ∈ (SysState.mk [] [WPhase.done] [7] [7] true).submitted,
      t ∈ (SysState.mk [] [WPhase.done] [7] [7] true).finished := by
  have h0 : SysReach 1 (initSys 1) := SysReach.init
  have h1 : SysReach 1 (SysState.mk [7] [WPhase.idle] [7] [] false) :=
    h0.step (SysStep.submit (initSys 1) 7 rfl (by decide))
  have h2 : SysReach 1 (SysState.mk [] [WPhase.executing 7] [7] [] false) :=
    h1.step (SysStep.pop (SysState.mk [7] [WPhase.idle] [7] [] false) 0 7 [] rfl rfl)
  have h3 : SysReach 1 (SysState.mk [] [WPhase.idle] [7] [7] false) :=
    h2.step (SysStep.retire (SysState.mk [] [WPhase.executing 7] [7] [] false) 0 7 rfl)
  have h4 : SysReach 1 (SysState.mk [] [WPhase.idle] [7] [7] true) :=
    h3.step (SysStep.stop (SysState.mk [] [WPhase.idle] [7] [7] false))
  have h5 : SysReach 1 (SysState.mk [] [WPhase.done] [7] [7] true) :=
    h4.step (SysStep.exitW (SysState.mk [] [WPhase.idle] [7] [7] true) 0 rfl rfl rfl)
  exact shutdown_completes_enqueued_work 1 _ h5 (by decide) (by decide)

/-- C6: on a single-worker pool, strict submission order is strict
execution order.  In every reachable state of a pool with exactly one
worker in which that worker is executing task `b`, every task `a`
submitted strictly before `b` (a splits off a portion of the submission
order containing `a` but not `b`) has already finished executing and
been retired: `a` finishes before `b` begins. -/
theorem single_worker_fifo_order (s : SysState) (a b : Nat) (hr : SysReach 1 s)
    (hw : s.workers = [WPhase.executing b])
    (hbefore : ∃ p q : List Nat, s.submitted = p ++ q ∧ a ∈ p ∧ b ∉ p) :
    a ∈ s.finished := by
  obtain ⟨-, -, -, -, hord⟩ := sysInv_reach 1 s hr
  have hlen : s.workers.length = 1 := by rw [hw]; rfl
  have h1 := hord hlen
  unfold curTasks at h1
  rw [hw] at h1
  simp only [curOf] at h1
  obtain ⟨p, q, hpq, hap, hbp⟩ := hbefore
  rw [hpq] at h1
  have h2 : p ++ q = s.finished ++ b :: s.queue := by
    simpa using h1.symm
  exact mems_before_pivot h2 hbp a hap

/-- Witness for C6: tasks 3 and 4 submitted in that order to a
single-worker pool; in the reachable state where the worker is
executing task 4, task 3 is already finished. -/
theorem single_worker_fifo_order_witness :
    3 ∈ (SysState.mk [] [WPhase.executing 4] [3, 4] [3] false).finished := by
  have h0 : SysReach 1 (initSys 1) := SysReach.init
  have h1 : SysReach 1 (SysState.mk [3] [WPhase.idle] [3] [] false) :=
    h0.step (SysStep.submit (initSys 1) 3 rfl (by decide))
  have h2 : SysReach 1 (SysState.mk [3, 4] [WPhase.idle] [3, 4] [] false) :=
    h1.step (SysStep.submit (SysState.mk [3] [WPhase.idle] [3] [] false) 4 rfl
      (by decide))
  have h3 : SysReach 1 (SysState.mk [4] [WPhase.executing 3] [3, 4] [] false) :=
    h2.step (SysStep.pop (SysState.mk [3, 4] [WPhase.idle] [3, 4] [] false) 0 3 [4]
      rfl rfl)
  have h4 : SysReach 1 (SysState.mk [4] [WPhase.idle] [3, 4] [3] false) :=
    h3.step (SysStep.retire (SysState.mk [4] [WPhase.executing 3] [3, 4] [] false) 0 3
      rfl)
  have h5 : SysReach 1 (SysState.mk [] [WPhase.executing 4] [3, 4] [3] false) :=
    h4.step (SysStep.pop (SysState.mk [4] [WPhase.idle] [3, 4] [3] false) 0 4 [] rfl
      rfl)
  exact single_worker_fifo_order _ 3 4 h5 rfl
    ⟨[3], [4], rfl, by decide, by decide⟩

end IlmThreadPool
